import Mathlib

/-
Verification of the btree.py repository (files src/btree.py, src/table.py)
against its natural-language specification.

The Python code is shallowly embedded: each Python function is translated
into an executable Lean function over explicit state.  Composite key fields
are modelled as integers (`Field := Int`); a composite key is a `List Int`.
Recursive tree procedures take an explicit fuel argument: any budget that
dominates the tree height (checked by the decidable predicate `okB`) makes
the embedding compute exactly what the Python recursion computes, and every
definition is structurally recursive and computable.
-/

set_option maxHeartbeats 1000000

namespace BTreePy

/-- Python exception kinds that the embedded code can surface. -/
inductive PyError where
  | typeError
  | valueError
  | attributeError
  | runtimeError
  | indexError
  deriving DecidableEq, Repr

/-- A field of a composite key. -/
abbrev Field := Int

/-- A composite row / key value: the `value` list of a `_BTreeKey`. -/
abbrev Row := List Field

/-! ### `_BTreeKey` comparison operators (src/btree.py lines 33-59)

Each operator loops `for i in range(min(len(self), len(other)))` and
returns `True` as soon as the pointwise comparison holds at any shared
position; otherwise it returns `False`.  `List.zip` truncates to the
shorter list, exactly like `range(min(len a, len b))`. -/

/-- `_BTreeKey.__gt__`: true iff some shared position satisfies `self[i] > other[i]`. -/
def pyGt (a b : Row) : Bool :=
  (a.zip b).any fun p => p.1 > p.2

/-- `_BTreeKey.__ge__`: true iff some shared position satisfies `self[i] >= other[i]`. -/
def pyGe (a b : Row) : Bool :=
  (a.zip b).any fun p => p.1 ≥ p.2

/-- `_BTreeKey.__lt__`: true iff some shared position satisfies `self[i] < other[i]`. -/
def pyLt (a b : Row) : Bool :=
  (a.zip b).any fun p => p.1 < p.2

/-- `_BTreeKey.__le__`: true iff some shared position satisfies `self[i] <= other[i]`. -/
def pyLe (a b : Row) : Bool :=
  (a.zip b).any fun p => p.1 ≤ p.2

/-- The strict lexicographic prefix order demanded by the specification
(section 4.5): walk the shared positions in order; the first position where
the fields differ decides the comparison, and if all shared positions agree
the shared prefix does not order the keys. -/
def specLexLt : Row → Row → Bool
  | x :: xs, y :: ys => if x < y then true else if y < x then false else specLexLt xs ys
  | _, _ => false

/-! ### Data model: `_BTreeKey` and `_BTreeNode` -/

/-- `_BTreeKey` (src/btree.py lines 13-19): a list of fields plus a
`deleted` tombstone flag.  The constructor validates `value == list(value)`
(always true for a list input) and starts with `deleted = False`. -/
structure BKey where
  value : Row
  deleted : Bool
  deriving DecidableEq, Repr

/-- `_BTreeNode` (src/btree.py lines 65-70): a `leaf` flag, a key list, a
child list, and the `has_deleted_key` rebalance flag. -/
inductive BNode : Type where
  | node (leaf : Bool) (keys : List BKey) (children : List BNode) (hasDeletedKey : Bool)

/-- Field accessor for `leaf`. -/
def BNode.leaf : BNode → Bool
  | .node l _ _ _ => l

/-- Field accessor for `keys`. -/
def BNode.keys : BNode → List BKey
  | .node _ ks _ _ => ks

/-- Field accessor for `children`. -/
def BNode.children : BNode → List BNode
  | .node _ _ cs _ => cs

/-- Field accessor for `has_deleted_key`. -/
def BNode.hasDeletedKey : BNode → Bool
  | .node _ _ _ d => d

/-- Default key used for (unreachable) out-of-range list reads. -/
def dKey : BKey := ⟨[], false⟩

/-- Default node used for (unreachable) out-of-range list reads. -/
def dNode : BNode := .node true [] [] false

/-! ### List helpers mirroring Python list primitives -/

/-- Python `a[i]` read (with an explicit default for out-of-range reads,
which the Python code never performs on the trees it builds). -/
def getAt (d : α) : Nat → List α → α
  | _, [] => d
  | 0, a :: _ => a
  | n + 1, _ :: as => getAt d n as

/-- Python `a[i] = x` write; out-of-range writes (never performed) are no-ops. -/
def setAt : Nat → α → List α → List α
  | _, _, [] => []
  | 0, x, _ :: as => x :: as
  | n + 1, x, a :: as => a :: setAt n x as

/-- Python `a.insert(i, x)`: inserts before position `i`, appending when
`i` is beyond the end of the list. -/
def insertAt : Nat → α → List α → List α
  | 0, x, as => x :: as
  | _ + 1, x, [] => [x]
  | n + 1, x, a :: as => a :: insertAt n x as

/-- Apply `f i a` to each element, with `i` counting from the given start
index (mirrors a Python `for i in range(...)` loop over list positions). -/
def mapIdxFrom (f : Nat → α → α) : Nat → List α → List α
  | _, [] => []
  | i, a :: as => f i a :: mapIdxFrom f (i + 1) as

/-! ### `bisect.bisect_left` and `bisect.bisect` on a key list

Python's `bisect` performs binary search with `lo`/`hi` bounds.  The probe
`x` is a plain list while the list elements are `_BTreeKey`s, so
`a[mid] < x` resolves to `_BTreeKey.__lt__` and `x < a[mid]` resolves (by
reflection, since `list.__lt__` returns NotImplemented on a `_BTreeKey`)
to `_BTreeKey.__gt__(a[mid], x)`.  The loop runs at most `len a` times, so
fuel `len a + 1` makes the embedding exact. -/

/-- One step bound for `bisect_left`: `while lo < hi: mid = (lo+hi)//2; if a[mid] < x: lo = mid+1 else: hi = mid`. -/
def bisLeftAux (a : List BKey) (x : Row) : Nat → Nat → Nat → Nat
  | 0, lo, _ => lo
  | f + 1, lo, hi =>
    if lo < hi then
      if pyLt (getAt dKey ((lo + hi) / 2) a).value x then bisLeftAux a x f ((lo + hi) / 2 + 1) hi
      else bisLeftAux a x f lo ((lo + hi) / 2)
    else lo

/-- `bisect.bisect_left(a, x)`. -/
def bisectLeft (a : List BKey) (x : Row) : Nat :=
  bisLeftAux a x (a.length + 1) 0 a.length

/-- One step bound for `bisect.bisect` (right): `if x < a[mid]: hi = mid else: lo = mid+1`,
where `x < a[mid]` is the reflected `_BTreeKey.__gt__(a[mid], x)`. -/
def bisRightAux (a : List BKey) (x : Row) : Nat → Nat → Nat → Nat
  | 0, lo, _ => lo
  | f + 1, lo, hi =>
    if lo < hi then
      if pyGt (getAt dKey ((lo + hi) / 2) a).value x then bisRightAux a x f lo ((lo + hi) / 2)
      else bisRightAux a x f ((lo + hi) / 2 + 1) hi
    else lo

/-- `bisect.bisect(a, x)` (bisect right). -/
def bisectRight (a : List BKey) (x : Row) : Nat :=
  bisRightAux a x (a.length + 1) 0 a.length

/-! ### `_BTreeNode.select_all` (src/btree.py lines 106-117)

A leaf yields its live keys in order.  An internal node yields, for each
`i in range(len(keys))`, the rows of `children[i]` followed by `keys[i]`
when live, and finally the rows of `children[-1]`. -/

/-- The live value of one key, as yielded by `select_all`. -/
def liveOf (k : BKey) : List Row :=
  if k.deleted then [] else [k.value]

/-- The live rows of a key list, in order: `for k in keys: if not k.deleted: yield list(k)`. -/
def liveKeys (ks : List BKey) : List Row :=
  ks.filterMap fun k => if k.deleted then none else some k.value

/-- Interleaves each key with the recursively computed rows of the child at
the same position (the loop body of `select_all` on an internal node). -/
def selInter : List BKey → List (List Row) → List Row
  | k :: ks, res :: rs => res ++ liveOf k ++ selInter ks rs
  | _, _ => []

/-- `select_all`, with fuel bounding the recursion depth. -/
def selA : Nat → BNode → List Row
  | 0, _ => []
  | _ + 1, .node true ks _ _ => liveKeys ks
  | f + 1, .node false ks cs _ =>
    let sub := cs.map (selA f)
    selInter ks sub ++ sub.getLastD []

/-! ### `_BTreeNode._slice` (src/btree.py lines 87-104)

Yields the `(node, index)` positions between `start` and `end`; we return
the keys at those positions (in order) instead of the positions, which is
what both `select` and `delete` consume.  At an internal node the branch
`end < self.keys[0]` is the reflected comparison `__gt__(keys[0], end)` and
`start > self.keys[-1]` is the reflected `__lt__(keys[-1], start)`. -/

/-- Interleaves sliced keys with the recursively sliced children of the
range `[l, r)` (the loop body of `_slice` on an internal node). -/
def sliceInter : List BKey → List (List BKey) → List BKey
  | k :: ks, res :: rs => res ++ k :: sliceInter ks rs
  | _, _ => []

/-- `_slice`, with fuel bounding the recursion depth. -/
def sliceKeys (s e : Row) : Nat → BNode → List BKey
  | 0, _ => []
  | _ + 1, .node true ks _ _ =>
    let l := bisectLeft ks s
    let r := bisectRight ks e
    (ks.drop l).take (r - l)
  | f + 1, .node false ks cs _ =>
    if pyGt (getAt dKey 0 ks).value e then
      sliceKeys s e f (getAt dNode 0 cs)
    else if pyLt (getAt dKey (ks.length - 1) ks).value s then
      sliceKeys s e f (getAt dNode (cs.length - 1) cs)
    else
      let l := bisectLeft ks s
      let r := bisectRight ks e
      sliceInter ((ks.drop l).take (r - l)) (((cs.drop l).take (r - l)).map (sliceKeys s e f))
        ++ sliceKeys s e f (getAt dNode r cs)

/-! ### `BTree.delete` (src/btree.py lines 151-154)

`delete` walks the positions produced by `_slice(key, key)` and mutates
`keys[i].deleted = True` and `node.has_deleted_key = True`.  The flag
mutations never influence the traversal, so the mutation is embedded as a
recursive transformation along the same branches as `_slice`. -/

/-- Marks `keys[l..r)` of one node deleted. -/
def markKeys (l r : Nat) (ks : List BKey) : List BKey :=
  mapIdxFrom (fun i k => if l ≤ i ∧ i < r then { k with deleted := true } else k) 0 ks

/-- The tombstone-marking pass of `delete`, following `_slice(s, e)`. -/
def deleteMark (s e : Row) : Nat → BNode → BNode
  | 0, n => n
  | _ + 1, .node true ks cs flag =>
    let l := bisectLeft ks s
    let r := bisectRight ks e
    .node true (markKeys l r ks) cs (flag || decide (l < r))
  | f + 1, .node false ks cs flag =>
    if pyGt (getAt dKey 0 ks).value e then
      .node false ks (mapIdxFrom (fun i c => if i = 0 then deleteMark s e f c else c) 0 cs) flag
    else if pyLt (getAt dKey (ks.length - 1) ks).value s then
      .node false ks
        (mapIdxFrom (fun i c => if i = cs.length - 1 then deleteMark s e f c else c) 0 cs) flag
    else
      let l := bisectLeft ks s
      let r := bisectRight ks e
      .node false (markKeys l r ks)
        (mapIdxFrom (fun i c => if l ≤ i ∧ i ≤ r then deleteMark s e f c else c) 0 cs)
        (flag || decide (l < r))

/-! ### `BTree._split_child` (src/btree.py lines 193-206) -/

/-- `_split_child(node, i)`: splits the full child at position `i`,
promoting its middle key `child.keys[order-1]` into the parent.  The new
sibling is created with `has_deleted_key = False` even when the keys moved
into it are tombstoned; the child keeps its own flag. -/
def splitChild (order : Nat) (n : BNode) (i : Nat) : BNode :=
  match n with
  | .node leaf ks cs flag =>
    let child := getAt dNode i cs
    let promoted := getAt dKey (order - 1) child.keys
    let newNode : BNode :=
      .node child.leaf (child.keys.drop order)
        (if child.leaf then [] else child.children.drop order) false
    let child2 : BNode :=
      .node child.leaf (child.keys.take (order - 1))
        (if child.leaf then child.children else child.children.take order) child.hasDeletedKey
    .node leaf (insertAt i promoted ks) (insertAt (i + 1) newNode (setAt i child2 cs)) flag

/-! ### `BTree._insert` (src/btree.py lines 181-191) -/

/-- `_insert(node, key)`: at a leaf, insert the key at its lower bound;
otherwise descend into the child at the lower bound, splitting it first
when it is full (and moving one position right when the inserted key
compares greater than the promoted separator). -/
def insertAux (order : Nat) : Nat → BNode → BKey → BNode
  | 0, n, _ => n
  | _ + 1, .node true ks cs flag, key =>
    .node true (insertAt (bisectLeft ks key.value) key ks) cs flag
  | f + 1, .node false ks cs flag, key =>
    let i := bisectLeft ks key.value
    if (getAt dNode i cs).keys.length = 2 * order - 1 then
      let n2 := splitChild order (.node false ks cs flag) i
      let i2 := if pyGt key.value (getAt dKey i n2.keys).value then i + 1 else i
      .node n2.leaf n2.keys (setAt i2 (insertAux order f (getAt dNode i2 n2.children) key) n2.children)
        n2.hasDeletedKey
    else
      .node false ks (setAt i (insertAux order f (getAt dNode i cs) key) cs) flag

/-! ### `_BTreeNode.valid` (src/btree.py lines 72-85) -/

/-- `valid(order)`: no tombstone flag, at most `order` children, and (for a
non-leaf) more than `ceil(order/2)` children with `len(keys) == len(children) - 1`. -/
def nodeValid (order : Nat) : BNode → Bool
  | .node leaf ks cs flag =>
    if flag then false
    else if order < cs.length then false
    else if !leaf then
      if cs.length ≤ (order + 1) / 2 then false
      else if ks.length + 1 ≠ cs.length then false
      else true
    else true

/-! ### The `BTree` object (src/btree.py lines 120-207)

The recursive Python methods terminate because their trees are finite.
The embedded wrappers take one extra `f : Nat` argument, a recursion depth
budget: whenever `okB f t.root` holds (shape well-formedness together with
`height ≤ f`, defined below) the budgeted recursion never runs out and the
embedding computes exactly what the Python methods compute. -/

/-- A `BTree`: the fan-out order and the root node. -/
structure BTree where
  order : Nat
  root : BNode

/-- `BTree.__init__(order)`: rejects `order < 2` with `ValueError`,
otherwise starts from an empty leaf root. -/
def BTree.new (order : Nat) : Except PyError BTree :=
  if order < 2 then .error .valueError else .ok ⟨order, .node true [] [] false⟩

/-- Decidable well-formedness bounded by `f`: the node's height is at most
`f`, leaves have no children (they are built that way and never gain any),
and every internal node has `len(children) == len(keys) + 1` — the shape
the Python code maintains for every tree it builds. -/
def okB : Nat → BNode → Bool
  | 0, _ => false
  | _ + 1, .node true _ cs _ => cs.isEmpty
  | f + 1, .node false ks cs _ => decide (cs.length = ks.length + 1) && cs.all (okB f)

/-- `BTree.insert(key)`: wrap the row in a `_BTreeKey`; if the root is
full, push it under a fresh internal root and split it; then run `_insert`
from the (possibly new) root, whose height is at most `f + 1`. -/
def BTree.insert (t : BTree) (f : Nat) (row : Row) : BTree :=
  let key : BKey := ⟨row, false⟩
  let root1 :=
    if 2 * t.order - 1 ≤ t.root.keys.length then
      splitChild t.order (.node false [] [t.root] false) 0
    else t.root
  ⟨t.order, insertAux t.order (f + 1) root1 key⟩

/-- `BTree.select_all()`. -/
def BTree.selectAll (t : BTree) (f : Nat) : List Row :=
  selA f t.root

/-- `BTree.select(start, end)`: the live rows at the positions produced by
`_slice(start, end)`. -/
def BTree.select (t : BTree) (f : Nat) (s e : Row) : List Row :=
  liveKeys (sliceKeys s e f t.root)

/-- `BTree.select(key)` with the default `end = None`, i.e. `end = start`. -/
def BTree.selectPt (t : BTree) (f : Nat) (key : Row) : List Row :=
  t.select f key key

/-- `BTree.delete(key)`: mark every position of `_slice(key, key)` deleted. -/
def BTree.delete (t : BTree) (f : Nat) (key : Row) : BTree :=
  ⟨t.order, deleteMark key key f t.root⟩

/-- Budgeted node count of a tree (exact when the budget dominates the height). -/
def cntF : Nat → BNode → Nat
  | 0, _ => 0
  | f + 1, .node _ _ cs _ => 1 + (cs.map (cntF f)).sum

/-- Budgeted total key count, tombstones included (exact when the budget
dominates the height). -/
def totF : Nat → BNode → Nat
  | 0, _ => 0
  | f + 1, .node _ ks cs _ => ks.length + (cs.map (totF f)).sum

/-- One step of `BTree.__len__`'s breadth-first worklist loop: pop a node,
add `len(node.keys)`, push its children. -/
def lenAux : Nat → List BNode → Nat
  | 0, _ => 0
  | _ + 1, [] => 0
  | f + 1, n :: rest => n.keys.length + lenAux f (rest ++ n.children)

/-- `BTree.__len__`: sums `len(node.keys)` over every node of the tree,
counting tombstoned keys too.  One fuel unit is consumed per worklist node,
so the budgeted node count supplies enough fuel. -/
def BTree.len (t : BTree) (f : Nat) : Nat :=
  lenAux (cntF f t.root) [t.root]

/-- Rebuild used by `_rebalance`: `new_node = BTree(self._order)` followed
by `new_node.insert(key)` for each row; the depth budget starts at the
empty tree's height 1 and grows by one per insert, which always dominates
the growing tree's height. -/
def buildFresh (order : Nat) (rows : List Row) : BTree :=
  (rows.foldl (fun p row => (p.1.insert p.2 row, p.2 + 1))
    ((⟨order, .node true [] [] false⟩ : BTree), 1)).1

/-- `BTree._rebalance(node)`: rebalance every child in place, keep the node
when it is `valid(order)`, and otherwise rebuild it from its live rows.
`g` is the depth budget handed to the inner `select_all` (rebuilt children
can be taller than the originals, so `g` must dominate `f` plus the total
key count). -/
def rebalanceN (order g : Nat) : Nat → BNode → BNode
  | 0, n => n
  | f + 1, .node leaf ks cs flag =>
    let n2 : BNode := .node leaf ks (cs.map (rebalanceN order g f)) flag
    if nodeValid order n2 then n2
    else (buildFresh order (selA g n2)).root

/-- `BTree.rebalance()`. -/
def BTree.rebalance (t : BTree) (f : Nat) : BTree :=
  ⟨t.order, rebalanceN t.order (f + totF f t.root + 1) f t.root⟩

/-! ### Specification-side counting functions

These structurally recursive functions state what the theorems measure:
the multiset of live rows of a tree, the total number of physically stored
keys (tombstones included), and the presence of tombstones. -/

mutual

/-- The multiset of live (non-tombstoned) rows stored in a node's subtree. -/
def liveN : BNode → Multiset Row
  | .node _ ks cs _ => (↑(liveKeys ks) : Multiset Row) + liveL cs

/-- The multiset of live rows stored in a forest. -/
def liveL : List BNode → Multiset Row
  | [] => 0
  | c :: cs => liveN c + liveL cs

end

mutual

/-- The number of physically stored keys in a node's subtree, tombstones included. -/
def totN : BNode → Nat
  | .node _ ks cs _ => ks.length + totL cs

/-- The number of physically stored keys in a forest. -/
def totL : List BNode → Nat
  | [] => 0
  | c :: cs => totN c + totL cs

end

/-- Budgeted check for a physically present tombstoned key anywhere in the
subtree (exact when the budget dominates the height). -/
def hasTomb : Nat → BNode → Bool
  | 0, _ => false
  | f + 1, .node _ ks cs _ => (ks.any fun k => k.deleted) || cs.any (hasTomb f)

mutual

/-- The number of nodes in a subtree. -/
def cntN : BNode → Nat
  | .node _ _ cs _ => 1 + cntL cs

/-- The number of nodes in a forest. -/
def cntL : List BNode → Nat
  | [] => 0
  | c :: cs => cntN c + cntL cs

end

/-! ### The table layer (src/table.py)

Only the pieces the claims are about are embedded: schemas, the `Index`
and `Table` constructors (C2), the `Table.update` guard and value
assembly (C8), attribute resolution for `Selection.slice` (C9), and the
`Aggregate` iterator (C10). -/

/-- A column: a name and a type constructor (represented by its name). -/
structure Column where
  name : String
  ctr : String
  deriving DecidableEq, Repr

/-- A `Schema`: ordered key columns and value columns. -/
structure Schema where
  key : List Column
  value : List Column
  deriving DecidableEq, Repr

/-- `Schema.columns()`: key columns followed by value columns. -/
def Schema.columns (s : Schema) : List Column :=
  s.key ++ s.value

/-- `Schema.key_names()`. -/
def Schema.keyNames (s : Schema) : List String :=
  s.key.map Column.name

/-- `Schema.value_names()`. -/
def Schema.valueNames (s : Schema) : List String :=
  s.value.map Column.name

/-- A call to `BTree.__init__` through Python's calling convention:
`BTree.__init__(self, order)` accepts exactly one argument besides `self`,
so a call passing any other number of positional arguments raises
`TypeError` before the body runs; otherwise the body rejects `order < 2`
with `ValueError` and builds the empty tree. -/
def callBTreeInit (numArgs : Nat) (order : Nat) : Except PyError BTree :=
  if numArgs ≠ 1 then .error .typeError else BTree.new order

/-- An `Index` object: its schema and the underlying `BTree`. -/
structure IndexObj where
  schema : Schema
  tree : BTree

/-- `Index.__init__(schema, keys)` (src/table.py lines 317-322): invokes
`BTree(10, tuple(c.ctr for c in schema.columns()), keys)` — three
positional arguments for a constructor that accepts only the order. -/
def indexInit (schema : Schema) (keys : List Row) : Except PyError IndexObj :=
  match callBTreeInit 3 10 with
  | .error e => .error e
  | .ok t =>
    match keys with
    | _ => .ok ⟨schema, t⟩

/-- A `Table` object: its primary index. -/
structure TableObj where
  primary : IndexObj

/-- `Table.__init__(index)` (src/table.py lines 426-431): requires an
already-constructed `Index`; an exception raised while building the
argument propagates. -/
def tableInit (idx : Except PyError IndexObj) : Except PyError TableObj :=
  match idx with
  | .error e => .error e
  | .ok i => .ok ⟨i⟩

/-- Python `set(a) > set(b)`: proper superset of the underlying sets. -/
def pySetProperSuperset (a b : List String) : Bool :=
  (b.all fun x => a.contains x) && (a.any fun x => !(b.contains x))

/-- The guard of `Table.update(value)` (src/table.py lines 554-555): raise
`ValueError` iff `set(value.keys()) > set(self.schema().key_names())`. -/
def tableUpdateGuardRaises (s : Schema) (assignedCols : List String) : Bool :=
  pySetProperSuperset assignedCols s.keyNames

/-- Python `value[c] if c in value else ...`: look an assignment up by
column name. -/
def lookupAssign (assignments : List (String × Field)) (c : String) : Option Field :=
  (assignments.find? fun p => p.1 = c).map Prod.snd

/-- The `new_value` computed by `Table.update` / `Table._update_row`:
`tuple(value[c] if c in value else row_value[value_labels[c]] for c in value_names)`.
Only value columns are consulted; an assignment naming any other column is
never read. -/
def updNewValue (valueNames : List String) (assignments : List (String × Field))
    (oldVals : List Field) : List Field :=
  (valueNames.zip oldVals).map fun p =>
    match lookupAssign assignments p.1 with
    | some v => v
    | none => p.2

/-- The schema of the concrete scenario used for the update claims:
key columns `one, two`, value columns `three, four`. -/
def demoSchema : Schema :=
  ⟨[⟨"one", "int"⟩, ⟨"two", "str"⟩], [⟨"three", "str"⟩, ⟨"four", "int"⟩]⟩

/-! ### Attribute resolution for `Selection.slice` (C9) -/

/-- The classes of src/table.py that participate in `slice` resolution. -/
inductive TClass where
  | selection
  | columnSelection
  | filterSelection
  | limitSelection
  | mergeSelection
  | orderSelection
  | schemaSelection
  | tableIndexSliceSelection
  | index
  | table
  deriving DecidableEq, Repr

/-- The method names defined directly on class `Selection` (src/table.py
lines 38-124). -/
def selectionAttrs : List String :=
  ["__init__", "__iter__", "count", "delete", "_delete_row", "filter", "group_by",
   "index", "limit", "order_by", "schema", "select", "slice",
   "supports_bounds", "supports_order", "update", "_update_row"]

/-- The method names defined directly on each class (transcribed from
src/table.py); every listed class except `Selection` itself inherits from
`Selection`. -/
def ownAttrs : TClass → List String
  | .selection => selectionAttrs
  | .columnSelection => ["__init__", "__getitem__", "__iter__", "schema", "_column_indices", "update"]
  | .filterSelection => ["__init__", "__iter__", "slice"]
  | .limitSelection => ["__init__", "__iter__", "slice"]
  | .mergeSelection => ["__init__", "__getitem__", "__iter__"]
  | .orderSelection => ["__init__", "__iter__"]
  | .schemaSelection => ["__init__", "schema"]
  | .tableIndexSliceSelection =>
    ["__init__", "__getitem__", "__iter__", "contains", "reversed", "_delete_row", "_update_row"]
  | .index =>
    ["__init__", "__bool__", "__getitem__", "__delitem__", "__len__", "contains", "delete",
     "insert", "rebalance", "schema", "slice", "supports_bounds", "supports_order", "reversed"]
  | .table =>
    ["__init__", "__getitem__", "__len__", "add_index", "delete", "insert", "order_by",
     "rebalance", "schema", "slice", "supports_bounds", "supports_order", "update",
     "upsert", "_delete_row", "_update_row"]

/-- Python attribute lookup on an instance of the class: its own class
dictionary, then the base class `Selection`. -/
def hasAttr (c : TClass) (name : String) : Bool :=
  (ownAttrs c).contains name || selectionAttrs.contains name

/-- Calling `slice(bounds)` on an instance: a subclass that overrides
`slice` runs its own body (whose outcome is not modelled here); otherwise
the base `Selection.slice` body runs and first evaluates
`self.supports(bounds)`, which raises `AttributeError` when no class in
the chain defines `supports`. -/
def sliceCallResult (c : TClass) : Except PyError Unit :=
  if c ≠ .selection ∧ (ownAttrs c).contains "slice" then .ok ()
  else if hasAttr c "supports" then .ok ()
  else .error .attributeError

/-- Every class (and top-level name) defined in src/table.py and src/btree.py. -/
def definedClassNames : List String :=
  ["Column", "Schema", "Selection", "Aggregate", "ColumnSelection", "FilterSelection",
   "LimitSelection", "MergeSelection", "OrderSelection", "SchemaSelection",
   "TableIndexSliceSelection", "Index", "ReadOnlyIndex", "Table",
   "BTree", "_BTreeKey", "_BTreeNode"]

/-! ### The `Aggregate` iterator (C10) -/

/-- Python truthiness of a `Selection` instance: `Selection` defines
neither `__bool__` nor `__len__` (and neither do `OrderSelection` or
`ColumnSelection`, through which `Aggregate` builds its source), so the
object is always truthy, whatever rows it would yield. -/
def selectionTruthy (_rows : List Row) : Bool :=
  true

/-- The loop of `Aggregate.__iter__`: yield each subsequent row that
differs from the previous group. -/
def aggLoop (group : Row) : List Row → List Row
  | [] => []
  | r :: rs => if r ≠ group then r :: aggLoop r rs else aggLoop group rs

/-- `Aggregate.__iter__` (src/table.py lines 134-145), applied to the rows
its ordered, projected source yields: the guard `if not self._source:
return []` is dead because the source is always truthy; then
`group = next(aggregate)` on an exhausted iterator raises `StopIteration`,
which PEP 479 converts into a `RuntimeError` escaping the generator. -/
def aggregateIter (rows : List Row) : Except PyError (List Row) :=
  if !(selectionTruthy rows) then .ok []
  else
    match rows with
    | [] => .error .runtimeError
    | g :: rest => .ok (g :: aggLoop g rest)

/-! ### Concrete trees used by the claim theorems -/

/-- The empty `BTree(2)`. -/
def empty2 : BTree :=
  ⟨2, .node true [] [] false⟩

/-- C3 scenario: insert the distinct composite keys `[2,1]` then `[1,2]`. -/
def c3Tree : BTree :=
  (empty2.insert 5 [2, 1]).insert 5 [1, 2]

/-- C4 scenario: insert the row `[1]` twice. -/
def c4Tree : BTree :=
  (empty2.insert 5 [1]).insert 5 [1]

/-- C5 scenario: insert `[1]` and `[2]`, then delete `[1]`. -/
def c5Tree : BTree :=
  ((empty2.insert 5 [1]).insert 5 [2]).delete 5 [1]

/-- C6 scenario: insert `[0]`, `[1]`, `[2]`, delete `[2]` (tombstoning it in
the root leaf), then insert `[3]` (splitting the root, which moves the
tombstoned key into a fresh sibling whose `has_deleted_key` is `False`). -/
def c6Tree : BTree :=
  ((((empty2.insert 5 [0]).insert 5 [1]).insert 5 [2]).delete 5 [2]).insert 5 [3]

/-- A one-key tree used to witness the rebalance-preservation theorem. -/
def c6WitnessTree : BTree :=
  ⟨2, .node true [⟨[1], false⟩] [] false⟩

/-- C7 scenario: insert `[2,1]`, `[0,0]`, `[3,3]`, delete `[1,5]` (a no-op:
the slice finds nothing), then insert `[1,5]`. -/
def c7Tree : BTree :=
  ((((empty2.insert 5 [2, 1]).insert 5 [0, 0]).insert 5 [3, 3]).delete 5 [1, 5]).insert 5 [1, 5]

/-! ## Claim theorems -/

/-- C1: the spec demands the strict lexicographic prefix order, under which
`[1,2] < [2,1]` (decided at the first shared position) and therefore not
`[1,2] > [2,1]`.  The code's `_BTreeKey.__lt__` and `__gt__` instead return
true as soon as any shared position satisfies the pointwise comparison, so
the pair `a = [1,2]`, `b = [2,1]` satisfies both `a < b` and `a > b`:
comparison decides on a later position although the first shared position
already ordered the keys.  This violates the claimed strictness. -/
theorem c1_shortcut_comparison_violates_strict_lex :
    pyLt [(1 : Int), 2] [2, 1] = true ∧
    pyGt [(1 : Int), 2] [2, 1] = true ∧
    specLexLt [(1 : Int), 2] [2, 1] = true ∧
    specLexLt [(2 : Int), 1] [1, 2] = false := by
  decide

/-- C2: for every schema and initial key list, `Index.__init__` fails with
`TypeError`, because it calls the `BTree` constructor with three positional
arguments while `BTree.__init__` accepts only the order; consequently
`Table(Index(...))` fails the same way, so no `Table` is ever constructed. -/
theorem c2_index_constructor_always_fails :
    ∀ (schema : Schema) (keys : List Row),
      indexInit schema keys = .error .typeError ∧
      tableInit (indexInit schema keys) = .error .typeError := by
  intro schema keys
  exact ⟨rfl, rfl⟩

/-- C3: inserting the pairwise-distinct composite keys `[2,1]` then `[1,2]`
into a `BTree(2)` makes full forward iteration yield `[[2,1], [1,2]]`,
which is not ascending: the spec's strict lexicographic order places
`[1,2]` strictly before `[2,1]`.  (The misplacement comes from the code's
`__lt__`, which considers `[2,1] < [1,2]` true via the second position.)
The fuel `5` dominates the height of every tree involved. -/
theorem c3_forward_iteration_not_ascending :
    c3Tree.selectAll 5 = [[2, 1], [1, 2]] ∧
    specLexLt [(1 : Int), 2] [2, 1] = true ∧
    pyLt [(2 : Int), 1] [1, 2] = true := by
  decide

/-- C4 counterexample: after inserting the identical live row `[1]` twice
into a `BTree(2)`, `select([1])` yields the row twice — not exactly once —
so inserting an already-present live row is not a no-op and the tree's
contents change. -/
theorem c4_duplicate_insert_not_idempotent :
    c4Tree.selectPt 5 [1] = [[1], [1]] ∧ (c4Tree.selectPt 5 [1]).length ≠ 1 := by
  decide

/-- C5 counterexample: insert `[1]` and `[2]`, then `delete([1])`: the tree
stores one live key, but `len` still reports 2, because `__len__` sums
`len(node.keys)` over all nodes without excluding tombstones. -/
theorem c5_len_counts_tombstones_counterexample :
    c5Tree.len 5 = 2 ∧ (c5Tree.selectAll 5).length = 1 := by
  decide

/-- C6 counterexample: in the `c6Tree` scenario the root split performed
while inserting `[3]` moves the tombstoned key `[2]` into a fresh sibling
whose `has_deleted_key` flag is `False`; `rebalance()` therefore considers
that node valid and keeps it, so a tombstone physically survives the
rebalance — the claimed strict post-rebalance invariant (no tombstones
remaining) fails.  The live rows themselves are preserved. -/
theorem c6_rebalance_leaves_tombstone :
    hasTomb 10 ((c6Tree.rebalance 5).root) = true ∧
    (c6Tree.rebalance 5).selectAll 10 = [[0], [1], [3]] := by
  decide

/-- C7: in the `c7Tree` scenario the key `[1,5]` is deleted (a no-op — the
slice misses) and then re-inserted, after which it is physically present
and live (full iteration yields it), yet `select([1,5])` still returns no
rows: re-inserting a deleted key does not make it visible to `select`
again.  The internal-node branch `end < keys[0]` of `_slice` holds for
`end = [1,5]` against the separator `[2,1]` (second position), while the
insert descended to the right of that separator (also second position). -/
theorem c7_reinserted_key_invisible_to_select :
    c7Tree.selectPt 5 [1, 5] = [] ∧ [(1 : Int), 5] ∈ c7Tree.selectAll 5 := by
  decide

/-- C8: `Table.update` raises only when the assigned column names form a
proper superset of the key-column names.  An assignment naming the key
column `one` (or an unknown column `nope`) is therefore not rejected, and
the `new_value` assembly silently ignores it — it iterates value columns
only, so no key column of a stored row is ever modified, but no
InvalidArgument-style error is raised either. -/
theorem c8_update_key_column_not_rejected :
    tableUpdateGuardRaises demoSchema ["one"] = false ∧
    "one" ∈ demoSchema.keyNames ∧
    tableUpdateGuardRaises demoSchema ["nope"] = false ∧
    "nope" ∉ (demoSchema.columns.map Column.name) ∧
    updNewValue demoSchema.valueNames [("one", 5)] [30, 40] = [30, 40] := by
  decide

/-- C9: every selection class that does not override `Selection.slice`
(including `Selection` itself) raises `AttributeError` on any `slice`
call: the base body first evaluates `self.supports(bounds)` and no class
in the codebase defines `supports`; nor is any class named
`SliceSelection` defined, so the base `slice` can never return a
selection. -/
theorem c9_base_selection_slice_always_raises :
    sliceCallResult .selection = .error .attributeError ∧
    sliceCallResult .columnSelection = .error .attributeError ∧
    sliceCallResult .orderSelection = .error .attributeError ∧
    sliceCallResult .mergeSelection = .error .attributeError ∧
    sliceCallResult .schemaSelection = .error .attributeError ∧
    sliceCallResult .tableIndexSliceSelection = .error .attributeError ∧
    "supports" ∉ selectionAttrs ∧
    "SliceSelection" ∉ definedClassNames := by
  exact ⟨rfl, rfl, rfl, rfl, rfl, rfl, by decide, by decide⟩

/-- Helper for C10: the `Aggregate` loop computes exactly the adjacent
deduplication `List.destutter'` of the remaining rows seeded with the
first group. -/
theorem aggLoop_eq_destutter :
    ∀ (l : List Row) (g : Row), g :: aggLoop g l = List.destutter' (· ≠ ·) g l
  | [], g => by simp [aggLoop, List.destutter']
  | r :: rs, g => by
    by_cases h : r = g
    · subst h
      rw [show aggLoop r (r :: rs) = aggLoop r rs from by simp [aggLoop]]
      rw [List.destutter'_cons, if_neg (by simp)]
      exact aggLoop_eq_destutter rs r
    · rw [show aggLoop g (r :: rs) = r :: aggLoop r rs from by simp [aggLoop, h]]
      rw [List.destutter'_cons, if_pos (Ne.symm h)]
      rw [aggLoop_eq_destutter rs r]

/-- C10: `group_by` on a source yielding no rows raises when iterated (the
truthiness guard is dead, so the unconditional `next()` on the exhausted
iterator escapes as a `RuntimeError`), and on any non-empty source it
yields the first row's group followed by each subsequent row that differs
from the previous group (the adjacent deduplication of the ordered
projection). -/
theorem c10_group_by_empty_raises_nonempty_dedups :
    aggregateIter [] = .error .runtimeError ∧
    ∀ (g : Row) (rest : List Row),
      aggregateIter (g :: rest) = .ok (List.destutter' (· ≠ ·) g rest) := by
  exact ⟨rfl, fun g rest => congrArg Except.ok (aggLoop_eq_destutter rest g)⟩

/-! ## Helper lemmas on the list primitives -/

theorem getAt_mem (d : α) : ∀ (i : Nat) (l : List α), i < l.length → getAt d i l ∈ l
  | _, [], h => absurd h (by simp)
  | 0, a :: as, _ => List.mem_cons_self a as
  | n + 1, a :: as, h =>
    List.mem_cons_of_mem a (getAt_mem d n as (by simpa using h))

theorem getAt_decomp (d : α) : ∀ (i : Nat) (l : List α), i < l.length →
    l.take i ++ getAt d i l :: l.drop (i + 1) = l
  | _, [], h => absurd h (by simp)
  | 0, a :: as, _ => by simp [getAt]
  | n + 1, a :: as, h => by
    simp only [List.take_succ_cons, List.drop_succ_cons, getAt, List.cons_append,
      List.cons.injEq, true_and]
    exact getAt_decomp d n as (by simpa using h)

theorem setAt_decomp (x : α) : ∀ (i : Nat) (l : List α), i < l.length →
    setAt i x l = l.take i ++ x :: l.drop (i + 1)
  | _, [], h => absurd h (by simp)
  | 0, a :: as, _ => by simp [setAt]
  | n + 1, a :: as, h => by
    simp only [setAt, List.take_succ_cons, List.drop_succ_cons, List.cons_append,
      List.cons.injEq, true_and]
    exact setAt_decomp x n as (by simpa using h)

theorem insertAt_append (x : α) : ∀ (A B : List α) (j : Nat),
    insertAt (A.length + j) x (A ++ B) = A ++ insertAt j x B
  | [], B, j => by simp [insertAt]
  | a :: as, B, j => by
    have h : (a :: as).length + j = (as.length + j) + 1 := by
      simp [List.length_cons]
      omega
    rw [h, List.cons_append]
    show a :: insertAt (as.length + j) x (as ++ B) = a :: (as ++ insertAt j x B)
    rw [insertAt_append x as B j]

theorem insertAt_perm (x : α) : ∀ (i : Nat) (l : List α), List.Perm (insertAt i x l) (x :: l)
  | 0, _ => List.Perm.refl _
  | _ + 1, [] => List.Perm.refl _
  | n + 1, a :: as => ((insertAt_perm x n as).cons a).trans (List.Perm.swap x a as)

theorem length_insertAt (x : α) : ∀ (i : Nat) (l : List α), (insertAt i x l).length = l.length + 1
  | 0, _ => rfl
  | _ + 1, [] => rfl
  | n + 1, _ :: as => by simp [insertAt, length_insertAt x n as]

theorem length_setAt (x : α) : ∀ (i : Nat) (l : List α), (setAt i x l).length = l.length
  | _, [] => by simp [setAt]
  | 0, _ :: _ => rfl
  | n + 1, _ :: as => by simp [setAt, length_setAt x n as]

theorem length_mapIdxFrom (g : Nat → α → α) :
    ∀ (j : Nat) (l : List α), (mapIdxFrom g j l).length = l.length
  | _, [] => rfl
  | j, _ :: as => by simp [mapIdxFrom, length_mapIdxFrom g (j + 1) as]

theorem mem_setAt (x y : α) : ∀ (i : Nat) (l : List α), y ∈ setAt i x l → y = x ∨ y ∈ l
  | _, [], h => by simp [setAt] at h
  | 0, a :: as, h => by
    rcases List.mem_cons.mp h with h1 | h1
    · exact Or.inl h1
    · exact Or.inr (List.mem_cons_of_mem a h1)
  | n + 1, a :: as, h => by
    rcases List.mem_cons.mp h with h1 | h1
    · exact Or.inr (h1 ▸ List.mem_cons_self a as)
    · rcases mem_setAt x y n as h1 with h2 | h2
      · exact Or.inl h2
      · exact Or.inr (List.mem_cons_of_mem a h2)

theorem mem_insertAt (x y : α) : ∀ (i : Nat) (l : List α), y ∈ insertAt i x l → y = x ∨ y ∈ l
  | 0, _, h => by
    rcases List.mem_cons.mp h with h1 | h1
    · exact Or.inl h1
    · exact Or.inr h1
  | _ + 1, [], h => by
    rcases List.mem_cons.mp h with h1 | h1
    · exact Or.inl h1
    · simp at h1
  | n + 1, a :: as, h => by
    rcases List.mem_cons.mp h with h1 | h1
    · exact Or.inr (h1 ▸ List.mem_cons_self a as)
    · rcases mem_insertAt x y n as h1 with h2 | h2
      · exact Or.inl h2
      · exact Or.inr (List.mem_cons_of_mem a h2)

theorem mem_mapIdxFrom (g : Nat → α → α) (y : α) :
    ∀ (j : Nat) (l : List α), y ∈ mapIdxFrom g j l → ∃ i a, a ∈ l ∧ y = g i a
  | _, [], h => by simp [mapIdxFrom] at h
  | j, a :: as, h => by
    rcases List.mem_cons.mp h with h1 | h1
    · exact ⟨j, a, List.mem_cons_self a as, h1⟩
    · rcases mem_mapIdxFrom g y (j + 1) as h1 with ⟨i, b, hb, he⟩
      exact ⟨i, b, List.mem_cons_of_mem a hb, he⟩

/-! ## Bisect results stay within the searched range -/

theorem bisLeftAux_le (a : List BKey) (x : Row) :
    ∀ (f lo hi : Nat), lo ≤ hi → bisLeftAux a x f lo hi ≤ hi
  | 0, _, _, h => h
  | f + 1, lo, hi, h => by
    simp only [bisLeftAux]
    split
    · split
      · exact bisLeftAux_le a x f _ hi (by omega)
      · exact le_trans (bisLeftAux_le a x f lo _ (by omega)) (by omega)
    · exact h

theorem bisectLeft_le (a : List BKey) (x : Row) : bisectLeft a x ≤ a.length :=
  bisLeftAux_le a x (a.length + 1) 0 a.length (Nat.zero_le _)

theorem bisRightAux_le (a : List BKey) (x : Row) :
    ∀ (f lo hi : Nat), lo ≤ hi → bisRightAux a x f lo hi ≤ hi
  | 0, _, _, h => h
  | f + 1, lo, hi, h => by
    simp only [bisRightAux]
    split
    · split
      · exact le_trans (bisRightAux_le a x f lo _ (by omega)) (by omega)
      · exact bisRightAux_le a x f _ hi (by omega)
    · exact h

theorem bisectRight_le (a : List BKey) (x : Row) : bisectRight a x ≤ a.length :=
  bisRightAux_le a x (a.length + 1) 0 a.length (Nat.zero_le _)

/-! ## Facts about `okB` and the counting functions -/

theorem okB_mono : ∀ (f g : Nat), f ≤ g → ∀ (n : BNode), okB f n = true → okB g n = true
  | 0, _, _, n, h => by simp [okB] at h
  | _ + 1, 0, hle, _, _ => absurd hle (by omega)
  | _ + 1, _ + 1, _, .node true _ cs _, h => by
    simpa [okB] using (by simpa [okB] using h : cs.isEmpty = true)
  | f + 1, g + 1, hle, .node false ks cs d, h => by
    simp only [okB, Bool.and_eq_true, decide_eq_true_eq, List.all_eq_true] at h ⊢
    exact ⟨h.1, fun c hc => okB_mono f g (by omega) c (h.2 c hc)⟩

theorem totL_append : ∀ (a b : List BNode), totL (a ++ b) = totL a + totL b
  | [], b => by simp [totL]
  | c :: cs, b => by
    rw [List.cons_append]
    simp only [totL]
    rw [totL_append cs b]
    omega

theorem cntL_append : ∀ (a b : List BNode), cntL (a ++ b) = cntL a + cntL b
  | [], b => by simp [cntL]
  | c :: cs, b => by
    rw [List.cons_append]
    simp only [cntL]
    rw [cntL_append cs b]
    omega

theorem liveL_append : ∀ (a b : List BNode), liveL (a ++ b) = liveL a + liveL b
  | [], b => by simp [liveL]
  | c :: cs, b => by
    rw [List.cons_append]
    simp only [liveL]
    rw [liveL_append cs b, add_assoc]

theorem totN_le_totL : ∀ (cs : List BNode) (c : BNode), c ∈ cs → totN c ≤ totL cs
  | c' :: cs', c, h => by
    rcases List.mem_cons.mp h with h1 | h1
    · subst h1
      simp only [totL]
      omega
    · have := totN_le_totL cs' c h1
      simp only [totL]
      omega

theorem cntF_eq : ∀ (f : Nat) (n : BNode), okB f n = true → cntF f n = cntN n
  | 0, _, h => by simp [okB] at h
  | f + 1, .node true ks cs d, h => by
    have hcs : cs = [] := by simpa [okB, List.isEmpty_iff] using h
    subst hcs
    simp [cntF, cntN, cntL]
  | f + 1, .node false ks cs d, h => by
    simp only [okB, Bool.and_eq_true, decide_eq_true_eq, List.all_eq_true] at h
    simp only [cntF, cntN]
    have hmap : cs.map (cntF f) = cs.map cntN :=
      List.map_congr_left fun c hc => cntF_eq f c (h.2 c hc)
    rw [hmap]
    have hsum : ∀ (l : List BNode), (l.map cntN).sum = cntL l := by
      intro l
      induction l with
      | nil => simp [cntL]
      | cons c cs ih => simp [cntL, ih]
    rw [hsum]

theorem totF_eq : ∀ (f : Nat) (n : BNode), okB f n = true → totF f n = totN n
  | 0, _, h => by simp [okB] at h
  | f + 1, .node true ks cs d, h => by
    have hcs : cs = [] := by simpa [okB, List.isEmpty_iff] using h
    subst hcs
    simp [totF, totN, totL]
  | f + 1, .node false ks cs d, h => by
    simp only [okB, Bool.and_eq_true, decide_eq_true_eq, List.all_eq_true] at h
    simp only [totF, totN]
    have hmap : cs.map (totF f) = cs.map totN :=
      List.map_congr_left fun c hc => totF_eq f c (h.2 c hc)
    rw [hmap]
    have hsum : ∀ (l : List BNode), (l.map totN).sum = totL l := by
      intro l
      induction l with
      | nil => simp [totL]
      | cons c cs ih => simp [totL, ih]
    rw [hsum]

/-! ## `__len__` computes the physical key count -/

theorem lenAux_eq : ∀ (f : Nat) (l : List BNode), cntL l ≤ f → lenAux f l = totL l
  | 0, [], _ => by simp [lenAux, totL]
  | 0, (.node lf ks cs d) :: rest, h => by
    exfalso
    simp only [cntL, cntN] at h
    omega
  | _ + 1, [], _ => by simp [lenAux, totL]
  | f + 1, (.node lf ks cs d) :: rest, h => by
    simp only [lenAux, BNode.keys, BNode.children]
    have hb : cntL (rest ++ cs) ≤ f := by
      rw [cntL_append]
      simp only [cntL, cntN] at h
      omega
    rw [lenAux_eq f (rest ++ cs) hb, totL_append]
    simp only [totL, totN]
    omega

/-! ## `delete` (tombstone marking) preserves the physical tree shape -/

theorem totL_mapIdxFrom (g : Nat → BNode → BNode) (hg : ∀ (i : Nat) (c : BNode), totN (g i c) = totN c) :
    ∀ (j : Nat) (cs : List BNode), totL (mapIdxFrom g j cs) = totL cs
  | _, [] => rfl
  | j, c :: cs => by
    simp only [mapIdxFrom, totL]
    rw [hg j c, totL_mapIdxFrom g hg (j + 1) cs]

theorem length_markKeys (l r : Nat) (ks : List BKey) : (markKeys l r ks).length = ks.length :=
  length_mapIdxFrom _ 0 ks

theorem deleteMark_totN : ∀ (f : Nat) (s e : Row) (n : BNode), totN (deleteMark s e f n) = totN n
  | 0, _, _, _ => rfl
  | f + 1, s, e, .node true ks cs flag => by
    simp only [deleteMark, totN, length_markKeys]
  | f + 1, s, e, .node false ks cs flag => by
    simp only [deleteMark]
    split
    · simp only [totN]
      rw [totL_mapIdxFrom _ (fun i c => by
        by_cases hi : i = 0
        · simp only [hi, if_pos rfl]
          exact deleteMark_totN f s e c
        · simp [hi]) 0 cs]
    · split
      · simp only [totN]
        rw [totL_mapIdxFrom _ (fun i c => by
          by_cases hi : i = cs.length - 1
          · simp only [hi, if_pos rfl]
            exact deleteMark_totN f s e c
          · simp [hi]) 0 cs]
      · simp only [totN, length_markKeys]
        rw [totL_mapIdxFrom _ (fun i c => by
          by_cases hi : bisectLeft ks s ≤ i ∧ i ≤ bisectRight ks e
          · simp only [if_pos hi]
            exact deleteMark_totN f s e c
          · simp [hi]) 0 cs]

theorem okB_deleteMark : ∀ (f : Nat) (s e : Row) (g : Nat) (n : BNode),
    okB g n = true → okB g (deleteMark s e f n) = true
  | 0, _, _, _, _, h => h
  | _ + 1, s, e, 0, n, h => by simp [okB] at h
  | _ + 1, s, e, g + 1, .node true ks cs flag, h => by
    have hcs : cs.isEmpty = true := by simpa [okB] using h
    simpa [deleteMark, okB] using hcs
  | f + 1, s, e, g + 1, .node false ks cs flag, h => by
    simp only [okB, Bool.and_eq_true, decide_eq_true_eq, List.all_eq_true] at h
    have hmem : ∀ (gg : Nat → BNode → BNode),
        (∀ (i : Nat) (c : BNode), c ∈ cs → okB g (gg i c) = true) →
        (mapIdxFrom gg 0 cs).length = cs.length ∧
        ∀ c ∈ mapIdxFrom gg 0 cs, okB g c = true := by
      intro gg hgg
      refine ⟨length_mapIdxFrom gg 0 cs, fun c hc => ?_⟩
      rcases mem_mapIdxFrom gg c 0 cs hc with ⟨i, a, ha, he⟩
      exact he ▸ hgg i a ha
    simp only [deleteMark]
    split
    · have := hmem (fun i c => if i = 0 then deleteMark s e f c else c)
        (fun i c hc => by
          by_cases hi : i = 0
          · simp only [hi, if_pos rfl]
            exact okB_deleteMark f s e g c (h.2 c hc)
          · simpa [hi] using h.2 c hc)
      simp only [okB, Bool.and_eq_true, decide_eq_true_eq, List.all_eq_true]
      exact ⟨by rw [this.1]; exact h.1, this.2⟩
    · split
      · have := hmem (fun i c => if i = cs.length - 1 then deleteMark s e f c else c)
          (fun i c hc => by
            by_cases hi : i = cs.length - 1
            · simp only [hi, if_pos rfl]
              exact okB_deleteMark f s e g c (h.2 c hc)
            · simpa [hi] using h.2 c hc)
        simp only [okB, Bool.and_eq_true, decide_eq_true_eq, List.all_eq_true]
        exact ⟨by rw [this.1]; exact h.1, this.2⟩
      · have := hmem (fun i c => if bisectLeft ks s ≤ i ∧ i ≤ bisectRight ks e
            then deleteMark s e f c else c)
          (fun i c hc => by
            by_cases hi : bisectLeft ks s ≤ i ∧ i ≤ bisectRight ks e
            · simp only [if_pos hi]
              exact okB_deleteMark f s e g c (h.2 c hc)
            · simpa [hi] using h.2 c hc)
        simp only [okB, Bool.and_eq_true, decide_eq_true_eq, List.all_eq_true]
        exact ⟨by rw [this.1, length_markKeys]; exact h.1, this.2⟩

/-- C5 amended: `len` equals the number of physically stored keys,
tombstones included, and `delete` (which only sets tombstone flags) leaves
`len` unchanged — so `len` does not equal the live key count whenever
tombstones are present (see the counterexample). -/
theorem c5_len_counts_physical_keys :
    ∀ (t : BTree) (f : Nat) (k : Row), okB f t.root = true →
      t.len f = totN t.root ∧ (t.delete f k).len f = t.len f := by
  intro t f k h
  have hlen : ∀ (n : BNode), okB f n = true → lenAux (cntF f n) [n] = totN n := by
    intro n hn
    have h2 : cntL [n] = cntN n := by simp [cntL]
    rw [cntF_eq f n hn, lenAux_eq (cntN n) [n] (le_of_eq h2)]
    simp [totL]
  have h1 : t.len f = totN t.root := hlen t.root h
  refine ⟨h1, ?_⟩
  have hok : okB f (deleteMark k k f t.root) = true := okB_deleteMark f k k f t.root h
  have h3 : (t.delete f k).len f = totN (deleteMark k k f t.root) := hlen _ hok
  rw [h3, deleteMark_totN f k k t.root, h1]

/-- Witness for C5 amended, at the concrete tree of the counterexample:
the hypotheses hold and the theorem applies. -/
theorem c5_len_counts_physical_keys_witness :
    okB 5 c5Tree.root = true ∧
    (c5Tree.len 5 = totN c5Tree.root ∧ (c5Tree.delete 5 [2]).len 5 = c5Tree.len 5) :=
  ⟨by decide, c5_len_counts_physical_keys c5Tree 5 [2] (by decide)⟩

/-! ## Live rows of key lists -/

theorem liveKeys_cons (k : BKey) (ks : List BKey) :
    liveKeys (k :: ks) = liveOf k ++ liveKeys ks := by
  by_cases hd : k.deleted <;> simp [liveKeys, liveOf, List.filterMap_cons, hd]

theorem liveKeys_append (a b : List BKey) : liveKeys (a ++ b) = liveKeys a ++ liveKeys b :=
  List.filterMap_append a b _

theorem coe_liveKeys_insertAt (i : Nat) (x : BKey) (ks : List BKey) :
    (↑(liveKeys (insertAt i x ks)) : Multiset Row) = ↑(liveOf x) + ↑(liveKeys ks) := by
  have hperm : (liveKeys (insertAt i x ks)).Perm (liveKeys (x :: ks)) :=
    (insertAt_perm x i ks).filterMap _
  rw [Multiset.coe_eq_coe.mpr hperm, liveKeys_cons, ← Multiset.coe_add]

/-! ## `_split_child` preserves live rows and well-formedness -/

theorem splitChild_def (order : Nat) (lf : Bool) (ks : List BKey) (cs : List BNode) (flag : Bool)
    (i : Nat) :
    splitChild order (.node lf ks cs flag) i =
      .node lf (insertAt i (getAt dKey (order - 1) (getAt dNode i cs).keys) ks)
        (insertAt (i + 1)
          (.node (getAt dNode i cs).leaf ((getAt dNode i cs).keys.drop order)
            (if (getAt dNode i cs).leaf then [] else (getAt dNode i cs).children.drop order) false)
          (setAt i
            (.node (getAt dNode i cs).leaf ((getAt dNode i cs).keys.take (order - 1))
              (if (getAt dNode i cs).leaf then (getAt dNode i cs).children
                else (getAt dNode i cs).children.take order)
              (getAt dNode i cs).hasDeletedKey)
            cs))
        flag := rfl

theorem splitChild_liveN (order : Nat) (lf : Bool) (ks : List BKey) (cs : List BNode) (flag : Bool)
    (i : Nat) (horder : 1 ≤ order) (hi : i < cs.length)
    (hk : order ≤ (getAt dNode i cs).keys.length) :
    liveN (splitChild order (.node lf ks cs flag) i) = liveN (.node lf ks cs flag) := by
  rcases hch : getAt dNode i cs with ⟨cleaf, cks, ccs, cflag⟩
  rw [hch] at hk
  simp only [BNode.keys] at hk
  rw [splitChild_def, hch]
  simp only [BNode.keys, BNode.children, BNode.leaf, BNode.hasDeletedKey, liveN]
  -- decompose the child key list around the promoted key
  have hk1 : order - 1 < cks.length := by omega
  have hcks : cks.take (order - 1) ++ getAt dKey (order - 1) cks :: cks.drop order = cks := by
    have := getAt_decomp dKey (order - 1) cks hk1
    have ho : order - 1 + 1 = order := by omega
    rw [ho] at this
    exact this
  -- decompose the child list around the split child
  have hcs : cs.take i ++ (BNode.node cleaf cks ccs cflag) :: cs.drop (i + 1) = cs := by
    have := getAt_decomp dNode i cs hi
    rw [hch] at this
    exact this
  -- rewrite the updated child list into an explicit append
  have hset : setAt i (BNode.node cleaf (cks.take (order - 1))
        (if cleaf = true then ccs else ccs.take order) cflag) cs
      = cs.take i ++ (BNode.node cleaf (cks.take (order - 1))
        (if cleaf = true then ccs else ccs.take order) cflag) :: cs.drop (i + 1) :=
    setAt_decomp _ i cs hi
  have htklen : (cs.take i).length = i := by
    rw [List.length_take]
    omega
  have hins : insertAt (i + 1)
        (BNode.node cleaf (cks.drop order) (if cleaf = true then [] else ccs.drop order) false)
        (cs.take i ++ (BNode.node cleaf (cks.take (order - 1))
          (if cleaf = true then ccs else ccs.take order) cflag) :: cs.drop (i + 1))
      = cs.take i ++ (BNode.node cleaf (cks.take (order - 1))
          (if cleaf = true then ccs else ccs.take order) cflag)
        :: (BNode.node cleaf (cks.drop order) (if cleaf = true then [] else ccs.drop order) false)
        :: cs.drop (i + 1) := by
    have h1 : i + 1 = (cs.take i).length + 1 := by omega
    rw [h1, insertAt_append]
    simp [insertAt]
  rw [hset, hins, coe_liveKeys_insertAt]
  conv =>
    rhs
    rw [← hcs]
  rw [liveL_append, liveL_append]
  simp only [liveL, liveN]
  -- compare the key-list contributions
  have hkeys : (↑(liveKeys cks) : Multiset Row)
      = ↑(liveKeys (cks.take (order - 1))) + ↑(liveOf (getAt dKey (order - 1) cks))
        + ↑(liveKeys (cks.drop order)) := by
    conv =>
      lhs
      rw [← hcks]
    rw [liveKeys_append, liveKeys_cons, ← Multiset.coe_add, ← Multiset.coe_add, add_assoc]
  -- compare the child-list contributions
  have hchildren : liveL (if cleaf = true then ccs else ccs.take order)
        + liveL (if cleaf = true then [] else ccs.drop order)
      = liveL ccs := by
    by_cases hcl : cleaf = true
    · simp [hcl, liveL]
    · rw [if_neg hcl, if_neg hcl, ← liveL_append, List.take_append_drop]
  rw [hkeys]
  rw [← hchildren]
  abel

theorem splitChild_okB (order f : Nat) (ks : List BKey) (cs : List BNode) (flag : Bool)
    (i : Nat) (horder : 1 ≤ order) (hi : i < cs.length)
    (hk : order ≤ (getAt dNode i cs).keys.length)
    (h : okB (f + 1) (.node false ks cs flag) = true) :
    okB (f + 1) (splitChild order (.node false ks cs flag) i) = true := by
  simp only [okB, Bool.and_eq_true, decide_eq_true_eq, List.all_eq_true] at h
  obtain ⟨hlen, hall⟩ := h
  have hchild : okB f (getAt dNode i cs) = true := hall _ (getAt_mem dNode i cs hi)
  rcases hch : getAt dNode i cs with ⟨cleaf, cks, ccs, cflag⟩
  rw [hch] at hchild hk
  simp only [BNode.keys] at hk
  rw [splitChild_def, hch]
  simp only [BNode.keys, BNode.children, BNode.leaf, BNode.hasDeletedKey]
  cases f with
  | zero => simp [okB] at hchild
  | succ f' =>
    have hnew : okB (f' + 1) (BNode.node cleaf (cks.drop order)
        (if cleaf = true then [] else ccs.drop order) false) = true ∧
        okB (f' + 1) (BNode.node cleaf (cks.take (order - 1))
        (if cleaf = true then ccs else ccs.take order) cflag) = true := by
      cases cleaf with
      | true =>
        have hccs : ccs = [] := by simpa [okB, List.isEmpty_iff] using hchild
        subst hccs
        simp [okB]
      | false =>
        simp only [okB, Bool.and_eq_true, decide_eq_true_eq, List.all_eq_true] at hchild
        obtain ⟨hc1, hc2⟩ := hchild
        constructor
        · simp only [Bool.false_eq_true, if_false, okB, Bool.and_eq_true, decide_eq_true_eq,
            List.all_eq_true]
          refine ⟨?_, fun c hc => hc2 c (List.drop_subset order ccs hc)⟩
          rw [List.length_drop, List.length_drop]
          omega
        · simp only [Bool.false_eq_true, if_false, okB, Bool.and_eq_true, decide_eq_true_eq,
            List.all_eq_true]
          refine ⟨?_, fun c hc => hc2 c (List.take_subset order ccs hc)⟩
          rw [List.length_take, List.length_take]
          omega
    simp only [okB, Bool.and_eq_true, decide_eq_true_eq, List.all_eq_true]
    constructor
    · rw [length_insertAt, length_setAt, length_insertAt]
      omega
    · intro c hc
      rcases mem_insertAt _ c _ _ hc with h1 | h1
      · exact h1 ▸ hnew.1
      · rcases mem_setAt _ c _ _ h1 with h2 | h2
        · exact h2 ▸ hnew.2
        · exact hall c h2

/-! ## `_insert` always adds exactly the inserted key -/

@[simp] theorem leaf_node (lf : Bool) (ks : List BKey) (cs : List BNode) (d : Bool) :
    (BNode.node lf ks cs d).leaf = lf := rfl

@[simp] theorem keys_node (lf : Bool) (ks : List BKey) (cs : List BNode) (d : Bool) :
    (BNode.node lf ks cs d).keys = ks := rfl

@[simp] theorem children_node (lf : Bool) (ks : List BKey) (cs : List BNode) (d : Bool) :
    (BNode.node lf ks cs d).children = cs := rfl

@[simp] theorem hasDeletedKey_node (lf : Bool) (ks : List BKey) (cs : List BNode) (d : Bool) :
    (BNode.node lf ks cs d).hasDeletedKey = d := rfl

theorem insertStep (order f : Nat) (key : BKey)
    (IH : ∀ (n : BNode), okB f n = true →
      okB f (insertAux order f n key) = true ∧
      liveN (insertAux order f n key) = ↑(liveOf key) + liveN n)
    (ks2 : List BKey) (cs2 : List BNode) (flag2 : Bool) (i2 : Nat) (hi2 : i2 < cs2.length)
    (h : okB (f + 1) (.node false ks2 cs2 flag2) = true) :
    okB (f + 1)
      (.node false ks2 (setAt i2 (insertAux order f (getAt dNode i2 cs2) key) cs2) flag2) = true ∧
    liveN (.node false ks2 (setAt i2 (insertAux order f (getAt dNode i2 cs2) key) cs2) flag2)
      = ↑(liveOf key) + liveN (.node false ks2 cs2 flag2) := by
  simp only [okB, Bool.and_eq_true, decide_eq_true_eq, List.all_eq_true] at h
  obtain ⟨hlen, hall⟩ := h
  have hchild : okB f (getAt dNode i2 cs2) = true := hall _ (getAt_mem dNode i2 cs2 hi2)
  obtain ⟨hinsOk, hinsLive⟩ := IH _ hchild
  constructor
  · simp only [okB, Bool.and_eq_true, decide_eq_true_eq, List.all_eq_true]
    refine ⟨by rw [length_setAt]; exact hlen, fun c hc => ?_⟩
    rcases mem_setAt _ c _ _ hc with h1 | h1
    · exact h1 ▸ hinsOk
    · exact hall c h1
  · simp only [liveN]
    rw [setAt_decomp _ i2 cs2 hi2]
    conv =>
      rhs
      rw [← getAt_decomp dNode i2 cs2 hi2]
    rw [liveL_append, liveL_append]
    simp only [liveL]
    rw [hinsLive]
    abel

theorem insertAux_ok (order : Nat) (horder : 1 ≤ order) :
    ∀ (f : Nat) (n : BNode) (key : BKey), okB f n = true →
      okB f (insertAux order f n key) = true ∧
      liveN (insertAux order f n key) = ↑(liveOf key) + liveN n
  | 0, n, _, h => by simp [okB] at h
  | f + 1, .node true ks cs flg, key, h => by
    have hcs : cs.isEmpty = true := by simpa [okB] using h
    constructor
    · simpa [insertAux, okB] using hcs
    · simp only [insertAux, liveN, coe_liveKeys_insertAt, add_assoc]
  | f + 1, .node false ks cs flg, key, h => by
    have hhl : cs.length = ks.length + 1 := by
      simp only [okB, Bool.and_eq_true, decide_eq_true_eq, List.all_eq_true] at h
      exact h.1
    have hib : bisectLeft ks key.value ≤ ks.length := bisectLeft_le ks key.value
    have hi : bisectLeft ks key.value < cs.length := by omega
    simp only [insertAux]
    split
    · next hfull =>
      have hk : order ≤ (getAt dNode (bisectLeft ks key.value) cs).keys.length := by
        rw [hfull]
        omega
      have hok2 := splitChild_okB order f ks cs flg (bisectLeft ks key.value) horder hi hk h
      have hlive2 := splitChild_liveN order false ks cs flg (bisectLeft ks key.value) horder hi hk
      rcases hch : getAt dNode (bisectLeft ks key.value) cs with ⟨cleaf, cks, ccs, cflag⟩
      rw [splitChild_def] at hok2 hlive2 ⊢
      rw [hch] at hok2 hlive2 ⊢
      simp only [leaf_node, keys_node, children_node, hasDeletedKey_node] at hok2 hlive2 ⊢
      have hi2 : (if pyGt key.value
            (getAt dKey (bisectLeft ks key.value)
              (insertAt (bisectLeft ks key.value) (getAt dKey (order - 1) cks) ks)).value
            then bisectLeft ks key.value + 1 else bisectLeft ks key.value)
          < (insertAt (bisectLeft ks key.value + 1)
              (BNode.node cleaf (cks.drop order)
                (if cleaf = true then [] else ccs.drop order) false)
              (setAt (bisectLeft ks key.value)
                (BNode.node cleaf (cks.take (order - 1))
                  (if cleaf = true then ccs else ccs.take order) cflag)
                cs)).length := by
        rw [length_insertAt, length_setAt]
        split <;> omega
      obtain ⟨a, b⟩ := insertStep order f key
        (fun n hn => insertAux_ok order horder f n key hn) _ _ flg _ hi2 hok2
      exact ⟨a, b.trans (by rw [hlive2])⟩
    · exact insertStep order f key (fun n hn => insertAux_ok order horder f n key hn)
        ks cs flg _ hi h

/-- `BTree.insert` always adds exactly one live copy of the inserted row
and keeps the tree well-formed. -/
theorem insert_ok (t : BTree) (f : Nat) (row : Row) (horder : 1 ≤ t.order)
    (h : okB f t.root = true) :
    okB (f + 1) ((t.insert f row).root) = true ∧
    liveN ((t.insert f row).root) = row ::ₘ liveN t.root ∧
    (t.insert f row).order = t.order := by
  have hof : okB (f + 1) t.root = true := okB_mono f (f + 1) (by omega) t.root h
  simp only [BTree.insert]
  split
  · next hfull =>
    have hok0 : okB (f + 1) (BNode.node false [] [t.root] false) = true := by
      cases f with
      | zero => simp [okB] at h
      | succ f' =>
        simp only [okB, Bool.and_eq_true, decide_eq_true_eq, List.all_eq_true]
        refine ⟨by simp, fun c hc => ?_⟩
        rw [List.mem_singleton.mp hc]
        exact okB_mono (f' + 1) (f' + 1) (le_refl _) t.root h
    have hi0 : (0 : Nat) < ([t.root] : List BNode).length := by simp
    have hk0 : t.order ≤ (getAt dNode 0 [t.root]).keys.length := by
      show t.order ≤ t.root.keys.length
      omega
    have hok1 := splitChild_okB t.order f [] [t.root] false 0 horder hi0 hk0 hok0
    have hlive1 := splitChild_liveN t.order false [] [t.root] false 0 horder hi0 hk0
    obtain ⟨a, b⟩ := insertAux_ok t.order horder (f + 1) _ ⟨row, false⟩ hok1
    refine ⟨a, ?_, by trivial⟩
    rw [b, hlive1]
    simp [liveN, liveL, liveKeys, liveOf, Multiset.singleton_add]
  · obtain ⟨a, b⟩ := insertAux_ok t.order horder (f + 1) t.root ⟨row, false⟩ hof
    refine ⟨a, ?_, by trivial⟩
    rw [b]
    simp [liveOf, Multiset.singleton_add]

/-- C4 amended: `BTree.insert` of a full row is never a no-op, even when an
identical live row is already present: every insert adds exactly one more
live copy of the row to the tree's contents, so duplicate identical rows
accumulate (and rows with equal keys but distinct values likewise coexist). -/
theorem c4_insert_always_adds_live_copy (t : BTree) (f : Nat) (row : Row)
    (horder : 1 ≤ t.order) (h : okB f t.root = true) :
    liveN ((t.insert f row).root) = row ::ₘ liveN t.root :=
  (insert_ok t f row horder h).2.1

/-- Witness for C4 amended: inserting `[1]` into the tree that already
holds a live `[1]` adds a second live copy. -/
theorem c4_insert_always_adds_live_copy_witness :
    1 ≤ (empty2.insert 5 [1]).order ∧ okB 6 (empty2.insert 5 [1]).root = true ∧
    liveN ((empty2.insert 5 [1]).insert 6 [1]).root = [1] ::ₘ liveN (empty2.insert 5 [1]).root :=
  ⟨by decide, by decide,
    c4_insert_always_adds_live_copy (empty2.insert 5 [1]) 6 [1] (by decide) (by decide)⟩

/-! ## `select_all` enumerates exactly the live rows -/

theorem getLastD_cons_of_ne_nil (a : α) (l : List α) (h : l ≠ []) (d : α) :
    (a :: l).getLastD d = l.getLastD d := by
  cases l with
  | nil => exact absurd rfl h
  | cons b t => rw [List.getLastD_cons, List.getLastD_cons, List.getLastD_cons]

theorem selInter_liveN (f : Nat) : ∀ (ks : List BKey) (cs : List BNode),
    cs.length = ks.length + 1 → (∀ c ∈ cs, (↑(selA f c) : Multiset Row) = liveN c) →
    (↑(selInter ks (cs.map (selA f)) ++ (cs.map (selA f)).getLastD []) : Multiset Row)
      = ↑(liveKeys ks) + liveL cs
  | [], cs, hlen, hall => by
    obtain ⟨c, hc⟩ := List.length_eq_one.mp hlen
    subst hc
    have h1 : selInter [] ([c].map (selA f)) = [] := rfl
    have h2 : ([c].map (selA f)).getLastD [] = selA f c := rfl
    have h3 : liveKeys ([] : List BKey) = [] := rfl
    rw [h1, h2, List.nil_append, hall c (List.mem_cons_self c []), h3]
    simp [liveL]
  | k :: ks, [], hlen, _ => by simp at hlen
  | k :: ks, c :: cs, hlen, hall => by
    have hlen' : cs.length = ks.length + 1 := by simpa using hlen
    have hcs_ne : cs ≠ [] := by
      intro hnil
      rw [hnil] at hlen'
      simp at hlen'
    have hmap_ne : cs.map (selA f) ≠ [] := by simpa using hcs_ne
    have hIH := selInter_liveN f ks cs hlen' (fun c' hc' => hall c' (List.mem_cons_of_mem c hc'))
    have hc : (↑(selA f c) : Multiset Row) = liveN c := hall c (List.mem_cons_self c cs)
    simp only [List.map_cons, selInter]
    rw [getLastD_cons_of_ne_nil _ _ hmap_ne]
    rw [List.append_assoc, List.append_assoc]
    rw [← Multiset.coe_add, ← Multiset.coe_add]
    rw [hc, hIH, liveKeys_cons, ← Multiset.coe_add]
    simp only [liveL]
    abel

theorem selA_liveN : ∀ (f : Nat) (n : BNode), okB f n = true →
    (↑(selA f n) : Multiset Row) = liveN n
  | 0, n, h => by simp [okB] at h
  | f + 1, .node true ks cs d, h => by
    have hcs : cs = [] := by simpa [okB, List.isEmpty_iff] using h
    subst hcs
    simp [selA, liveN, liveL]
  | f + 1, .node false ks cs d, h => by
    simp only [okB, Bool.and_eq_true, decide_eq_true_eq, List.all_eq_true] at h
    simp only [selA, liveN]
    exact selInter_liveN f ks cs h.1 (fun c hc => selA_liveN f c (h.2 c hc))

/-! ## Live rows are at most the physical key count -/

mutual

theorem card_liveN_le : ∀ (n : BNode), Multiset.card (liveN n) ≤ totN n
  | .node lf ks cs d => by
    simp only [liveN, totN, Multiset.card_add, Multiset.coe_card]
    have h1 : (liveKeys ks).length ≤ ks.length := List.length_filterMap_le _ ks
    have h2 := card_liveL_le cs
    omega

theorem card_liveL_le : ∀ (l : List BNode), Multiset.card (liveL l) ≤ totL l
  | [] => by simp [liveL, totL]
  | c :: cs => by
    simp only [liveL, totL, Multiset.card_add]
    have h1 := card_liveN_le c
    have h2 := card_liveL_le cs
    omega

end

/-! ## Rebuilding a fresh tree from a row list -/

theorem liveL_map (g : BNode → BNode) : ∀ (cs : List BNode),
    (∀ c ∈ cs, liveN (g c) = liveN c) → liveL (cs.map g) = liveL cs
  | [], _ => rfl
  | c :: cs, h => by
    simp only [List.map_cons, liveL]
    rw [h c (List.mem_cons_self c cs),
      liveL_map g cs (fun c' hc' => h c' (List.mem_cons_of_mem c hc'))]

theorem buildAux : ∀ (rows : List Row) (t : BTree) (fl : Nat), 1 ≤ t.order →
    okB fl t.root = true →
    okB (fl + rows.length)
      ((rows.foldl (fun p row => (p.1.insert p.2 row, p.2 + 1)) (t, fl)).1.root) = true ∧
    liveN ((rows.foldl (fun p row => (p.1.insert p.2 row, p.2 + 1)) (t, fl)).1.root)
      = ↑rows + liveN t.root ∧
    (rows.foldl (fun p row => (p.1.insert p.2 row, p.2 + 1)) (t, fl)).1.order = t.order
  | [], t, fl, _, h => by
    refine ⟨h, ?_, rfl⟩
    simp
  | r :: rs, t, fl, ho, h => by
    simp only [List.foldl_cons]
    obtain ⟨h1, h2, h3⟩ := insert_ok t fl r ho h
    obtain ⟨a, b, c⟩ := buildAux rs (t.insert fl r) (fl + 1) (by rw [h3]; exact ho) h1
    refine ⟨?_, ?_, by rw [c, h3]⟩
    · have he : fl + (r :: rs).length = fl + 1 + rs.length := by
        simp only [List.length_cons]
        omega
      rw [he]
      exact a
    · rw [b, h2, ← Multiset.cons_coe, ← Multiset.singleton_add, ← Multiset.singleton_add]
      abel

theorem buildFresh_ok (order : Nat) (ho : 1 ≤ order) (rows : List Row) :
    okB (1 + rows.length) ((buildFresh order rows).root) = true ∧
    liveN ((buildFresh order rows).root) = ↑rows := by
  have h0 : okB 1 (BNode.node true [] [] false) = true := by decide
  obtain ⟨a, b, _⟩ :=
    buildAux rows (⟨order, .node true [] [] false⟩ : BTree) 1 ho h0
  refine ⟨a, ?_⟩
  rw [show (buildFresh order rows).root
      = ((rows.foldl (fun p row => (p.1.insert p.2 row, p.2 + 1))
        ((⟨order, .node true [] [] false⟩ : BTree), 1)).1.root) from rfl]
  rw [b]
  have hz : liveN (BNode.node true [] [] false) = 0 := by
    simp [liveN, liveL]
    rfl
  rw [hz, add_zero]

/-! ## `rebalance` preserves the live rows -/

theorem rebalanceN_ok : ∀ (f order g : Nat) (n : BNode), 2 ≤ order →
    okB f n = true → f + totN n + 1 ≤ g →
    liveN (rebalanceN order g f n) = liveN n ∧
    okB (f + totN n) (rebalanceN order g f n) = true
  | 0, _, _, n, _, h, _ => by simp [okB] at h
  | f + 1, order, g, .node lf ks cs d, horder, h, hg => by
    have hrec : ∀ c ∈ cs, liveN (rebalanceN order g f c) = liveN c ∧
        okB (f + totN c) (rebalanceN order g f c) = true := by
      intro c hc
      have hokc : okB f c = true := by
        cases lf with
        | true =>
          have : cs = [] := by simpa [okB, List.isEmpty_iff] using h
          rw [this] at hc
          simp at hc
        | false =>
          simp only [okB, Bool.and_eq_true, decide_eq_true_eq, List.all_eq_true] at h
          exact h.2 c hc
      have hcle : totN c ≤ totN (BNode.node lf ks cs d) := by
        have := totN_le_totL cs c hc
        simp only [totN]
        omega
      exact rebalanceN_ok f order g c horder hokc (by omega)
    have hlive2 : liveN (BNode.node lf ks (cs.map (rebalanceN order g f)) d)
        = liveN (BNode.node lf ks cs d) := by
      simp only [liveN]
      rw [liveL_map _ cs (fun c hc => (hrec c hc).1)]
    have hok2 : okB (f + totN (BNode.node lf ks cs d) + 1)
        (BNode.node lf ks (cs.map (rebalanceN order g f)) d) = true := by
      cases lf with
      | true =>
        have hcs : cs = [] := by simpa [okB, List.isEmpty_iff] using h
        subst hcs
        simp [okB]
      | false =>
        simp only [okB, Bool.and_eq_true, decide_eq_true_eq, List.all_eq_true] at h ⊢
        refine ⟨by rw [List.length_map]; exact h.1, fun c hc => ?_⟩
        rcases List.mem_map.mp hc with ⟨c0, hc0, he⟩
        have := (hrec c0 hc0).2
        have hcle : totN c0 ≤ totN (BNode.node false ks cs d) := by
          have := totN_le_totL cs c0 hc0
          simp only [totN]
          omega
        subst he
        exact okB_mono (f + totN c0) (f + totN (BNode.node false ks cs d)) (by omega) _ this
    simp only [rebalanceN]
    split
    · exact ⟨hlive2, by
        have he : f + 1 + totN (BNode.node lf ks cs d)
            = f + totN (BNode.node lf ks cs d) + 1 := by omega
        rw [he]
        exact hok2⟩
    · have hokg : okB g (BNode.node lf ks (cs.map (rebalanceN order g f)) d) = true :=
        okB_mono _ g (by omega) _ hok2
      have hsel : (↑(selA g (BNode.node lf ks (cs.map (rebalanceN order g f)) d)) : Multiset Row)
          = liveN (BNode.node lf ks cs d) := by
        rw [selA_liveN g _ hokg, hlive2]
      obtain ⟨hb1, hb2⟩ := buildFresh_ok order (by omega)
        (selA g (BNode.node lf ks (cs.map (rebalanceN order g f)) d))
      constructor
      · rw [hb2, hsel]
      · have hcard : (selA g (BNode.node lf ks (cs.map (rebalanceN order g f)) d)).length
            ≤ totN (BNode.node lf ks cs d) := by
          have h1 : ((↑(selA g (BNode.node lf ks (cs.map (rebalanceN order g f)) d)) :
              Multiset Row)).card = (selA g (BNode.node lf ks (cs.map (rebalanceN order g f)) d)).length :=
            Multiset.coe_card _
          rw [hsel] at h1
          have h2 := card_liveN_le (BNode.node lf ks cs d)
          omega
        exact okB_mono _ _ (by omega) _ hb1

/-- C6 amended: `rebalance()` preserves the multiset of live rows
enumerated by full iteration (though the rebuilt tree need not satisfy the
strict B-tree invariants — see the counterexample, where a tombstone
survives the rebalance). -/
theorem c6_rebalance_preserves_live_rows (t : BTree) (f : Nat) (horder : 2 ≤ t.order)
    (h : okB f t.root = true) :
    (↑((t.rebalance f).selectAll (f + totF f t.root + 1)) : Multiset Row)
      = ↑(t.selectAll f) := by
  have htot : totF f t.root = totN t.root := totF_eq f t.root h
  have hg : f + totN t.root + 1 ≤ f + totF f t.root + 1 := by rw [htot]
  obtain ⟨hlive, hok⟩ := rebalanceN_ok f t.order (f + totF f t.root + 1) t.root horder h hg
  have hok2 : okB (f + totF f t.root + 1)
      (rebalanceN t.order (f + totF f t.root + 1) f t.root) = true :=
    okB_mono _ _ (by rw [htot]; omega) _ hok
  rw [show (t.rebalance f).selectAll (f + totF f t.root + 1)
      = selA (f + totF f t.root + 1) (rebalanceN t.order (f + totF f t.root + 1) f t.root)
      from rfl]
  rw [selA_liveN _ _ hok2, hlive]
  rw [show t.selectAll f = selA f t.root from rfl, selA_liveN f t.root h]

/-- Witness for C6 amended at a concrete one-key tree. -/
theorem c6_rebalance_preserves_live_rows_witness :
    2 ≤ c6WitnessTree.order ∧ okB 1 c6WitnessTree.root = true ∧
    (↑((c6WitnessTree.rebalance 1).selectAll (1 + totF 1 c6WitnessTree.root + 1)) : Multiset Row)
      = ↑(c6WitnessTree.selectAll 1) :=
  ⟨by decide, by decide, c6_rebalance_preserves_live_rows c6WitnessTree 1 (by decide) (by decide)⟩

end BTreePy
